import Mathlib

/-!
Shallow embedding of the stack-based language in `src/main.rs`
(lexer `lex` / `lex_token`, parser `parse`, interpreter `compute`).

Modelling conventions:
  - Rust `i64` values are carried as `Int` (the abbreviation `I64` below),
    and the arithmetic operators reproduce `i64` semantics: `+`, `-`, `*`
    reduce their result to the two's-complement range via `wrap64`
    (release-build wrapping semantics), `/` and `%` are truncating
    (`Int.tdiv` / `Int.tmod`) and are errors on a zero divisor and on the
    always-checked `i64::MIN / -1` overflow.  The only integer literals the
    lexer accepts have at most ten decimal digits, so every value the lexer
    produces fits in 64 signed bits (proved below).
  - Rust `VecDeque` used as a stack (`push_back` / `pop_back`) is modelled as
    a `List` whose HEAD is the back (top) of the deque; the final operand
    stack, which the Rust program reports front-to-back (bottom-to-top), is
    therefore the reverse of the internal list.
  - The regex `-?` followed by one to ten digits, anchored on both sides, is
    modelled over the ASCII character classes (`Char.isDigit`,
    `Char.isWhitespace`); the embedding covers the ASCII fragment of the
    Unicode classes the Rust `regex` crate and `char::is_whitespace` use.
    On tokens containing a non-ASCII Unicode decimal digit the real program
    diverges from every total model: the regex digit class matches but
    `str::parse::<i64>` rejects, so `lex_token`'s `unwrap` panics (see the
    note at `isIntLitL`).
  - Rust panics (`unwrap`, `expect`, explicit `panic!`, indexing out of
    bounds) are modelled as error results (`Except.error` in the parser,
    `CRes.err` in the interpreter), preserving the fatal, no-recovery
    semantics.
  - The interpreter's `while` loop may not terminate, so it is modelled with
    explicit fuel; `CRes.timeout` marks fuel exhaustion and is distinct from
    a runtime error.
-/

abbrev I64 := Int

/-- Reduce an unbounded integer to the two's-complement range of `i64`,
`[-9223372036854775808, 9223372036854775807]` (the literals below are
`2 ^ 63` and `2 ^ 64`).  This is what Rust's `+`, `-`, `*` on `i64` compute
in a release build (wrapping on overflow). -/
def wrap64 (x : Int) : I64 :=
  (x + 9223372036854775808) % 18446744073709551616 - 9223372036854775808

/-- `i64::MIN`, the one dividend for which `i64` division by -1 overflows. -/
def i64Min : I64 := -9223372036854775808

inductive Token where
  | Word : String → Token
  | Number : I64 → Token
deriving DecidableEq, Repr

inductive Intrinsic where
  | Add | Sub | Mult | Div | Mod
  | LT | GT | LE | GE | EQ | NE
  | Dup | Drop
deriving DecidableEq, Repr

inductive Op where
  | Push : I64 → Op
  | Int : Intrinsic → Op
  | Cond : Op
  | Zaloop : Op
  | BStart : Nat → Nat → Op
  | BElse : Nat → Nat → Op
  | BEnd : Nat → Op
deriving DecidableEq, Repr

/-- The integer-literal test of `lex_token`: the regex checks an optional
leading minus followed by one to ten decimal digits, matching the whole
token.  The digit class is modelled as ASCII `Char.isDigit`; the Rust
`regex` crate's default Unicode mode makes its digit class the full Unicode
decimal-digit category, which is strictly wider than what
`str::parse::<i64>` accepts, so on a token made of non-ASCII Unicode digits
the real `lex_token` panics on its `unwrap` where this model (and the
program's own documented intent of a total lexer) classifies the token as a
word.  All theorems below about `lex` therefore speak about the ASCII
fragment, on which model and program agree. -/
def isIntLitL : List Char → Bool
  | [] => false
  | c :: rest =>
    if c = '-' then 1 ≤ rest.length && rest.length ≤ 10 && rest.all Char.isDigit
    else 1 ≤ (c :: rest).length && (c :: rest).length ≤ 10 && (c :: rest).all Char.isDigit

/-- String wrapper for `isIntLitL`. -/
def isIntLit (tok : String) : Bool :=
  isIntLitL tok.toList

/-- Value of a list of decimal digits, most significant first, as computed by
a standard left fold; this is the value `str::parse::<i64>` returns on a
run of ASCII digits. -/
def digitsToNat (cs : List Char) : Nat :=
  cs.foldl (fun a c => a * 10 + (c.toNat - 48)) 0

/-- The value `tok.parse::<i64>()` returns on a token accepted by the
integer-literal regex: an optional leading minus negates the digit value. -/
def parseIntLitL : List Char → I64
  | [] => 0
  | c :: rest =>
    if c = '-' then -(digitsToNat rest : Int) else (digitsToNat (c :: rest) : Int)

/-- String wrapper for `parseIntLitL`. -/
def parseIntLit (tok : String) : I64 :=
  parseIntLitL tok.toList

/-- `lex_token` from the source: a token matching the integer-literal regex
becomes `Number` with its parsed value, anything else becomes `Word`. -/
def lex_token (tok : String) : Token :=
  if isIntLit tok then Token.Number (parseIntLit tok) else Token.Word tok

/-- The character loop of `lex`: a non-whitespace character is appended to the
current run; a whitespace character emits `lex_token` of the current run
(even when that run is empty) and resets it; a non-empty trailing run is
flushed at the end. -/
def lexAux : List Char → List Char → List Token
  | [], cur => if cur.isEmpty then [] else [lex_token (String.mk cur)]
  | c :: cs, cur =>
    if c.isWhitespace then lex_token (String.mk cur) :: lexAux cs []
    else lexAux cs (cur ++ [c])

/-- `lex` from the source. -/
def lex (input : String) : List Token :=
  lexAux input.toList []

/-- The parser's lexeme table (`ops` in the source): maps each recognized
word to the operation it denotes.  The block lexemes are the left brace,
the right-brace-left-brace pair, and the right brace. -/
def lookupOp (w : String) : Option Op :=
  if w = "+" then some (Op.Int Intrinsic.Add)
  else if w = "-" then some (Op.Int Intrinsic.Sub)
  else if w = "*" then some (Op.Int Intrinsic.Mult)
  else if w = "/" then some (Op.Int Intrinsic.Div)
  else if w = "%" then some (Op.Int Intrinsic.Mod)
  else if w = "<" then some (Op.Int Intrinsic.LT)
  else if w = ">" then some (Op.Int Intrinsic.GT)
  else if w = "<=" then some (Op.Int Intrinsic.LE)
  else if w = ">=" then some (Op.Int Intrinsic.GE)
  else if w = "==" then some (Op.Int Intrinsic.EQ)
  else if w = "!=" then some (Op.Int Intrinsic.NE)
  else if w = ":" then some (Op.Int Intrinsic.Dup)
  else if w = ";" then some (Op.Int Intrinsic.Drop)
  else if w = "?" then some Op.Cond
  else if w = "@" then some Op.Zaloop
  else if w = "\x7b" then some (Op.BStart 0 0)
  else if w = "\x7d\x7b" then some (Op.BElse 0 0)
  else if w = "\x7d" then some (Op.BEnd 0)
  else none

/-- Parser state: the output sequence built so far, the emit counter `idx`,
and the pending-block index stack (head = most recently pushed). -/
structure PState where
  res : List Op
  idx : Nat
  pending : List Nat
deriving DecidableEq, Repr

/-- One token of `parse`.  Mirrors the source arm for arm; Rust panics
(unwrap on an unknown word, pop of the empty pending stack, out-of-bounds
indexing) become `Except.error`. -/
def parseStep (st : PState) (t : Token) : Except String PState :=
  match t with
  | Token.Number n => Except.ok ⟨st.res ++ [Op.Push n], st.idx + 1, st.pending⟩
  | Token.Word w =>
    if w = "" then Except.ok st
    else
      match lookupOp w with
      | none => Except.error "unknown word"
      | some op =>
        match op with
        | Op.BStart _ _ =>
          Except.ok ⟨st.res ++ [op], st.idx + 1, st.idx :: st.pending⟩
        | Op.BElse _ _ =>
          match st.pending with
          | [] => Except.error "pop of empty block stack"
          | bi :: rest =>
            match st.res[bi]? with
            | none => Except.error "index out of bounds"
            | some _ =>
              Except.ok ⟨(st.res.set bi (Op.BStart st.idx 0)) ++ [Op.BElse bi 0],
                st.idx + 1, st.idx :: rest⟩
        | Op.BEnd _ =>
          match st.pending with
          | [] => Except.error "pop of empty block stack"
          | bi :: rest =>
            match st.res[bi]? with
            | none => Except.error "index out of bounds"
            | some (Op.BElse o _) =>
              let r0 := st.res.set bi (Op.BElse o st.idx)
              match r0[o]? with
              | none => Except.error "index out of bounds"
              | some _ =>
                let r1 := (r0.set o (Op.BStart bi st.idx)) ++ [Op.BEnd bi]
                match r1[bi]? with
                | some (Op.BStart _ _) =>
                  Except.ok ⟨(r1.set bi (Op.BStart bi st.idx)) ++ [Op.BEnd bi],
                    st.idx + 1, rest⟩
                | _ => Except.ok ⟨r1, st.idx + 1, rest⟩
            | some (Op.BStart _ _) =>
              Except.ok ⟨(st.res.set bi (Op.BStart bi st.idx)) ++ [Op.BEnd bi],
                st.idx + 1, rest⟩
            | some _ => Except.ok ⟨st.res, st.idx + 1, rest⟩
        | _ => Except.ok ⟨st.res ++ [op], st.idx + 1, st.pending⟩

/-- The token loop of `parse`. -/
def parseAux : List Token → PState → Except String PState
  | [], st => Except.ok st
  | t :: ts, st =>
    match parseStep st t with
    | Except.error e => Except.error e
    | Except.ok st' => parseAux ts st'

/-- `parse` from the source: run the token loop from the empty state and
return the operation sequence. -/
def parse (input : List Token) : Except String (List Op) :=
  match parseAux input ⟨[], 0, []⟩ with
  | Except.error e => Except.error e
  | Except.ok st => Except.ok st.res

/-- Interpreter state: instruction pointer, operand stack and loop-marker
stack (both with list head = deque back = top). -/
structure MState where
  idx : Nat
  stack : List I64
  loops : List Nat
deriving DecidableEq, Repr

inductive StepRes where
  | ok : MState → StepRes
  | err : String → StepRes
deriving DecidableEq, Repr

/-- One iteration of the `while` loop of `compute`: execute the operation at
the instruction pointer, including the generic `idx += 1` at the end of the
loop body.  Rust panics (unwrap on an empty operand stack, the explicit
panic in `Drop`, division or remainder by zero, and the always-checked
`i64::MIN / -1` division and remainder overflow) become `StepRes.err`;
the `+`, `-`, `*` arms reduce their result to the `i64` range with
`wrap64`, the release-build wrapping semantics of Rust integer
arithmetic. -/
def step (ops : List Op) (st : MState) : StepRes :=
  match ops[st.idx]? with
  | none => StepRes.err "instruction pointer out of range"
  | some op =>
    match op with
    | Op.Push n => StepRes.ok ⟨st.idx + 1, n :: st.stack, st.loops⟩
    | Op.Cond =>
      match st.stack with
      | [] => StepRes.err "unwrap of empty stack"
      | v :: rest =>
        StepRes.ok ⟨st.idx + 1, (if v ≠ 0 then (1 : I64) else 0) :: rest, st.loops⟩
    | Op.BStart el en =>
      match st.stack with
      | [] => StepRes.err "unwrap of empty stack"
      | c :: rest =>
        if c = 0 then
          StepRes.ok ⟨(if el = st.idx then en else el) + 1, rest, st.loops.tail⟩
        else
          StepRes.ok ⟨st.idx + 1, rest, st.loops⟩
    | Op.BElse _ en => StepRes.ok ⟨en + 1, st.stack, st.loops⟩
    | Op.BEnd _ =>
      match st.loops with
      | [] => StepRes.ok ⟨st.idx + 1, st.stack, st.loops⟩
      | l :: _ => StepRes.ok ⟨(l - 1) + 1, st.stack, st.loops⟩
    | Op.Zaloop =>
      match st.stack with
      | [] => StepRes.err "unwrap of empty stack"
      | v :: rest =>
        let stack' := (if v ≠ 0 then (1 : I64) else 0) :: rest
        let loops' :=
          match st.loops with
          | [] => st.idx :: st.loops
          | l :: _ => if l ≠ st.idx then st.idx :: st.loops else st.loops
        StepRes.ok ⟨st.idx + 1, stack', loops'⟩
    | Op.Int i =>
      match i with
      | Intrinsic.Dup =>
        match st.stack with
        | [] => StepRes.err "unwrap of empty stack"
        | v :: rest => StepRes.ok ⟨st.idx + 1, v :: v :: rest, st.loops⟩
      | Intrinsic.Drop =>
        match st.stack with
        | [] => StepRes.err "Stack is too small to die!"
        | _ :: rest => StepRes.ok ⟨st.idx + 1, rest, st.loops⟩
      | Intrinsic.Add =>
        match st.stack with
        | [] => StepRes.err "Even less parameters"
        | [_] => StepRes.err "Too little parameters"
        | a :: b :: rest => StepRes.ok ⟨st.idx + 1, wrap64 (a + b) :: rest, st.loops⟩
      | Intrinsic.Mult =>
        match st.stack with
        | [] => StepRes.err "Even less parameters"
        | [_] => StepRes.err "Too little parameters"
        | a :: b :: rest => StepRes.ok ⟨st.idx + 1, wrap64 (a * b) :: rest, st.loops⟩
      | Intrinsic.Sub =>
        match st.stack with
        | [] => StepRes.err "Even less parameters"
        | [_] => StepRes.err "Too little parameters"
        | a :: b :: rest => StepRes.ok ⟨st.idx + 1, wrap64 (a - b) :: rest, st.loops⟩
      | Intrinsic.Div =>
        match st.stack with
        | [] => StepRes.err "Even less parameters"
        | [_] => StepRes.err "Too little parameters"
        | a :: b :: rest =>
          if b = 0 then StepRes.err "division by zero"
          else if a = i64Min ∧ b = -1 then StepRes.err "division overflow"
          else StepRes.ok ⟨st.idx + 1, (a.tdiv b) :: rest, st.loops⟩
      | Intrinsic.Mod =>
        match st.stack with
        | [] => StepRes.err "Even less parameters"
        | [_] => StepRes.err "Too little parameters"
        | a :: b :: rest =>
          if b = 0 then StepRes.err "remainder by zero"
          else if a = i64Min ∧ b = -1 then StepRes.err "remainder overflow"
          else StepRes.ok ⟨st.idx + 1, (a.tmod b) :: rest, st.loops⟩
      | Intrinsic.LT =>
        match st.stack with
        | [] => StepRes.err "Even less parameters"
        | [_] => StepRes.err "Too little parameters"
        | a :: b :: rest =>
          StepRes.ok ⟨st.idx + 1, (if a < b then (1 : I64) else 0) :: rest, st.loops⟩
      | Intrinsic.GT =>
        match st.stack with
        | [] => StepRes.err "Even less parameters"
        | [_] => StepRes.err "Too little parameters"
        | a :: b :: rest =>
          StepRes.ok ⟨st.idx + 1, (if a > b then (1 : I64) else 0) :: rest, st.loops⟩
      | Intrinsic.LE =>
        match st.stack with
        | [] => StepRes.err "Even less parameters"
        | [_] => StepRes.err "Too little parameters"
        | a :: b :: rest =>
          StepRes.ok ⟨st.idx + 1, (if a ≤ b then (1 : I64) else 0) :: rest, st.loops⟩
      | Intrinsic.GE =>
        match st.stack with
        | [] => StepRes.err "Even less parameters"
        | [_] => StepRes.err "Too little parameters"
        | a :: b :: rest =>
          StepRes.ok ⟨st.idx + 1, (if a ≥ b then (1 : I64) else 0) :: rest, st.loops⟩
      | Intrinsic.EQ =>
        match st.stack with
        | [] => StepRes.err "Even less parameters"
        | [_] => StepRes.err "Too little parameters"
        | a :: b :: rest =>
          StepRes.ok ⟨st.idx + 1, (if a = b then (1 : I64) else 0) :: rest, st.loops⟩
      | Intrinsic.NE =>
        match st.stack with
        | [] => StepRes.err "Even less parameters"
        | [_] => StepRes.err "Too little parameters"
        | a :: b :: rest =>
          StepRes.ok ⟨st.idx + 1, (if a ≠ b then (1 : I64) else 0) :: rest, st.loops⟩

/-- Result of a bounded run of `compute`: final operand stack in
bottom-to-top order, a fatal runtime error, or fuel exhaustion. -/
inductive CRes where
  | ok : List I64 → CRes
  | err : String → CRes
  | timeout : CRes
deriving DecidableEq, Repr

/-- The `while idx < ops.len()` loop of `compute`, with explicit fuel. -/
def computeAux : Nat → List Op → MState → CRes
  | 0, _, _ => CRes.timeout
  | fuel + 1, ops, st =>
    if st.idx < ops.length then
      match step ops st with
      | StepRes.err e => CRes.err e
      | StepRes.ok st' => computeAux fuel ops st'
    else
      CRes.ok st.stack.reverse

/-- `compute` from the source, from the initial state (instruction pointer 0,
both stacks empty), with the given fuel. -/
def run (fuel : Nat) (ops : List Op) : CRes :=
  computeAux fuel ops ⟨0, [], []⟩

/-- The whole pipeline of `main` on a source string: lex, parse, compute. -/
def runProg (fuel : Nat) (src : String) : CRes :=
  match parse (lex src) with
  | Except.error e => CRes.err e
  | Except.ok ops => run fuel ops

/-! ### Definitions used by the claim statements -/

/-- The eleven binary intrinsics (everything except `Dup` and `Drop`). -/
def isBinary : Intrinsic → Bool
  | Intrinsic.Dup => false
  | Intrinsic.Drop => false
  | _ => true

/-- Result a binary intrinsic pushes, with the FIRST-popped (most recently
pushed) operand as the left-hand side; arithmetic results are reduced to the
`i64` range (wrapping, as the interpreter computes them), division and
remainder are truncating, and comparisons yield 1 when the relation holds
and 0 otherwise.  This is the operand convention the code actually
implements (`a <op> b` where `a` is popped first). -/
def specBinOp (i : Intrinsic) (first second : I64) : I64 :=
  match i with
  | Intrinsic.Add => wrap64 (first + second)
  | Intrinsic.Sub => wrap64 (first - second)
  | Intrinsic.Mult => wrap64 (first * second)
  | Intrinsic.Div => first.tdiv second
  | Intrinsic.Mod => first.tmod second
  | Intrinsic.LT => if first < second then 1 else 0
  | Intrinsic.GT => if first > second then 1 else 0
  | Intrinsic.LE => if first ≤ second then 1 else 0
  | Intrinsic.GE => if first ≥ second then 1 else 0
  | Intrinsic.EQ => if first = second then 1 else 0
  | Intrinsic.NE => if first ≠ second then 1 else 0
  | Intrinsic.Dup => 0
  | Intrinsic.Drop => 0

/-- Number of operand-stack values an operation pops before it can do
anything (0 for operations that never pop). -/
def minOperands : Op → Nat
  | Op.Push _ => 0
  | Op.BElse _ _ => 0
  | Op.BEnd _ => 0
  | Op.Cond => 1
  | Op.Zaloop => 1
  | Op.BStart _ _ => 1
  | Op.Int Intrinsic.Dup => 1
  | Op.Int Intrinsic.Drop => 1
  | Op.Int Intrinsic.Add => 2
  | Op.Int Intrinsic.Sub => 2
  | Op.Int Intrinsic.Mult => 2
  | Op.Int Intrinsic.Div => 2
  | Op.Int Intrinsic.Mod => 2
  | Op.Int Intrinsic.LT => 2
  | Op.Int Intrinsic.GT => 2
  | Op.Int Intrinsic.LE => 2
  | Op.Int Intrinsic.GE => 2
  | Op.Int Intrinsic.EQ => 2
  | Op.Int Intrinsic.NE => 2

/-- A token that makes the parser's lexeme lookup fail: a non-empty word
carrying no recognized lexeme. -/
def hasBadWordB : List Token → Bool
  | [] => false
  | Token.Number _ :: ts => hasBadWordB ts
  | Token.Word w :: ts => (!(w = "") && (lookupOp w).isNone) || hasBadWordB ts

/-- True when, scanning the tokens with a pending-block depth counter `d`
(left brace opens, right brace closes, the else lexeme closes and reopens),
a block terminator or else token is met at depth 0 before any unrecognized
word. -/
def underflowB : Nat → List Token → Bool
  | _, [] => false
  | d, Token.Number _ :: ts => underflowB d ts
  | d, Token.Word w :: ts =>
    if w = "" then underflowB d ts
    else
      match lookupOp w with
      | some (Op.BStart _ _) => underflowB (d + 1) ts
      | some (Op.BElse _ _) => decide (d = 0) || underflowB d ts
      | some (Op.BEnd _) => decide (d = 0) || underflowB (d - 1) ts
      | some _ => underflowB d ts
      | none => false

/-- Shape of the entry a pending-block index points at while parsing: either
the block-start placeholder, or an else-branch head whose back-reference `o`
points below it at a start placeholder referencing it. -/
def PendShape (res : List Op) (p : Nat) : Prop :=
  res[p]? = some (Op.BStart 0 0) ∨
  ∃ o, o < p ∧ res[p]? = some (Op.BElse o 0) ∧ res[o]? = some (Op.BStart p 0)

/-- The mutual-consistency facts of one fully resolved block whose
terminator `BEnd bi` sits at position `e`: either `bi` is the block head,
a `BStart` whose else-index is its own position `bi` (the self-reference
the interpreter treats as "no else": jump to the end index) and whose end
index is `e`; or `bi` is an else head `BElse o e` whose back-reference `o`
is the block head `BStart bi e`. -/
def finishedAt (res : List Op) (e bi : Nat) : Prop :=
  bi < e ∧
    (res[bi]? = some (Op.BStart bi e) ∨
      ∃ o, o < bi ∧ res[bi]? = some (Op.BElse o e) ∧ res[o]? = some (Op.BStart bi e))

/-- Every emitted block terminator is mutually consistent with its head. -/
def Done (res : List Op) : Prop :=
  ∀ e bi, res[e]? = some (Op.BEnd bi) → finishedAt res e bi

/-- An operation whose end field is still the placeholder 0 (an unresolved
block head or else head). -/
def isUnfinished : Op → Bool
  | Op.BStart _ en => en = 0
  | Op.BElse _ en => en = 0
  | _ => false

def isBEnd : Op → Bool
  | Op.BEnd _ => true
  | _ => false

/-- Number of block terminators in an operation sequence. -/
def countBEnd (res : List Op) : Nat :=
  res.countP isBEnd

/-- Number of block-terminator (right brace) tokens. -/
def countREnd (ts : List Token) : Nat :=
  ts.countP (fun t => decide (t = Token.Word "\x7d"))

/-- The parse-loop invariant: the emit counter equals the output length; the
pending indices strictly decrease from the top, are in bounds and point at
unresolved block or else heads; and every emitted terminator is already
mutually consistent with its head. -/
structure ParseInv (st : PState) : Prop where
  idx_eq : st.idx = st.res.length
  pend_lt : ∀ p ∈ st.pending, p < st.res.length
  pend_sorted : st.pending.Pairwise (fun a b => b < a)
  pend_shape : ∀ p ∈ st.pending, PendShape st.res p
  done : Done st.res

/-! ### Helper lemmas -/

theorem char_digit_le (c : Char) (h : c.isDigit = true) : c.toNat - 48 ≤ 9 := by
  simp only [Char.isDigit, decide_eq_true_eq, Bool.and_eq_true] at h
  obtain ⟨h1, h2⟩ := h
  have g1 : (48 : UInt32).toNat ≤ c.val.toNat := h1
  have g2 : c.val.toNat ≤ (57 : UInt32).toNat := h2
  have e1 : (48 : UInt32).toNat = 48 := rfl
  have e2 : (57 : UInt32).toNat = 57 := rfl
  have e3 : c.toNat = c.val.toNat := rfl
  omega

theorem foldl_digits_lt (cs : List Char) :
    ∀ a : Nat, (∀ c ∈ cs, c.isDigit = true) →
      cs.foldl (fun a c => a * 10 + (c.toNat - 48)) a < (a + 1) * 10 ^ cs.length := by
  induction cs with
  | nil => intro a _; simp
  | cons c cs ih =>
    intro a h
    have hc : c.toNat - 48 ≤ 9 := char_digit_le c (h c (by simp))
    have hrec := ih (a * 10 + (c.toNat - 48)) (fun x hx => h x (by simp [hx]))
    have hmul : (a * 10 + (c.toNat - 48) + 1) * 10 ^ cs.length ≤
        ((a + 1) * 10) * 10 ^ cs.length :=
      Nat.mul_le_mul_right _ (by omega)
    have heq : ((a + 1) * 10) * 10 ^ cs.length = (a + 1) * 10 ^ (c :: cs).length := by
      simp [List.length_cons, pow_succ]; ring
    calc (c :: cs).foldl (fun a c => a * 10 + (c.toNat - 48)) a
        = cs.foldl (fun a c => a * 10 + (c.toNat - 48)) (a * 10 + (c.toNat - 48)) := rfl
      _ < (a * 10 + (c.toNat - 48) + 1) * 10 ^ cs.length := hrec
      _ ≤ ((a + 1) * 10) * 10 ^ cs.length := hmul
      _ = (a + 1) * 10 ^ (c :: cs).length := heq

theorem digitsToNat_lt (cs : List Char) (h : ∀ c ∈ cs, c.isDigit = true) :
    digitsToNat cs < 10 ^ cs.length := by
  have := foldl_digits_lt cs 0 h
  simpa [digitsToNat] using this

theorem digitsToNat_lt_i64 (cs : List Char) (hlen : cs.length ≤ 10)
    (h : ∀ c ∈ cs, c.isDigit = true) : digitsToNat cs < 2 ^ 63 := by
  have h1 : digitsToNat cs < 10 ^ cs.length := digitsToNat_lt cs h
  have h2 : (10 : Nat) ^ cs.length ≤ 10 ^ 10 := Nat.pow_le_pow_right (by norm_num) hlen
  have h3 : (10 : Nat) ^ 10 < 2 ^ 63 := by norm_num
  omega

theorem parseIntLitL_lt (cs : List Char) (h : isIntLitL cs = true) :
    (parseIntLitL cs).natAbs < 2 ^ 63 := by
  rcases cs with _ | ⟨c, rest⟩
  · simp [isIntLitL] at h
  · by_cases hc : c = '-'
    · subst hc
      simp [isIntLitL] at h
      obtain ⟨⟨h1, h2⟩, h3⟩ := h
      have hb := digitsToNat_lt_i64 rest h2 h3
      simpa [parseIntLitL, Int.natAbs_neg, Int.natAbs_ofNat] using hb
    · simp [isIntLitL, hc] at h
      obtain ⟨h2, h3, h4⟩ := h
      have hb := digitsToNat_lt_i64 (c :: rest) (by simp; omega) (by
        intro x hx
        rcases List.mem_cons.mp hx with rfl | hx
        · exact h3
        · exact h4 x hx)
      simpa [parseIntLitL, hc, Int.natAbs_ofNat] using hb

theorem lexAux_ws (cs : List Char) (h : ∀ c ∈ cs, c.isWhitespace = true) :
    lexAux cs [] = List.replicate cs.length (Token.Word "") := by
  induction cs with
  | nil => rfl
  | cons c cs ih =>
    have hc : c.isWhitespace = true := h c (by simp)
    have hrest := ih (fun x hx => h x (by simp [hx]))
    simp [lexAux, hc, hrest, List.replicate]
    rfl

theorem lex_ws (s : String) (h : ∀ c ∈ s.toList, c.isWhitespace = true) :
    lex s = List.replicate s.length (Token.Word "") := by
  have : s.length = s.toList.length := rfl
  rw [lex, this, lexAux_ws s.toList h]

theorem parseAux_replicate_empty (n : Nat) (st : PState) :
    parseAux (List.replicate n (Token.Word "")) st = Except.ok st := by
  induction n with
  | zero => rfl
  | succ n ih => simpa [List.replicate, parseAux, parseStep] using ih

theorem step_underflow (ops : List Op) (st : MState) (op : Op)
    (h : ops[st.idx]? = some op) (hlen : st.stack.length < minOperands op) :
    ∃ e, step ops st = StepRes.err e := by
  rcases op with n | i | _ | _ | ⟨el, en⟩ | ⟨s, e⟩ | bi
  · exact absurd hlen (by simp [minOperands])
  · rcases hst : st.stack with _ | ⟨a, _ | ⟨b, rest⟩⟩
    · rcases i <;> simp [step, h, hst]
    · rcases i
      case Dup => exact absurd hlen (by simp [minOperands, hst])
      case Drop => exact absurd hlen (by simp [minOperands, hst])
      all_goals simp [step, h, hst]
    · exfalso
      rcases i <;> simp [minOperands, hst] at hlen <;> omega
  · rcases hst : st.stack with _ | ⟨a, tl⟩
    · simp [step, h, hst]
    · exact absurd hlen (by simp [minOperands, hst])
  · rcases hst : st.stack with _ | ⟨a, tl⟩
    · simp [step, h, hst]
    · exact absurd hlen (by simp [minOperands, hst])
  · rcases hst : st.stack with _ | ⟨a, tl⟩
    · simp [step, h, hst]
    · exact absurd hlen (by simp [minOperands, hst])
  · exact absurd hlen (by simp [minOperands])
  · exact absurd hlen (by simp [minOperands])

/-! ### Claim theorems -/

/-- C1 (amended): a binary intrinsic pops `first` (the most recently pushed
value) and `second`, and pushes `first <op> second` — the FIRST-popped
operand is the left-hand side, not the second as the original claim states;
the arithmetic result is reduced to the two's-complement `i64` range
(wrapping) and comparisons push 1 when `first <rel> second` holds and 0
otherwise.  In particular the program with tokens 10, 3, minus yields the
final stack holding -7 (not 7).  Division and remainder need the hypothesis
that the second-popped operand (the divisor in the code) is non-zero and
that the operands are not the overflowing pair `i64::MIN` and -1, otherwise
they are a runtime error. -/
theorem claim_C1 :
    (∀ (ops : List Op) (st : MState) (i : Intrinsic) (a b : I64) (rest : List I64),
      ops[st.idx]? = some (Op.Int i) → isBinary i = true →
      ((i = Intrinsic.Div ∨ i = Intrinsic.Mod) → b ≠ 0 ∧ ¬(a = i64Min ∧ b = -1)) →
      st.stack = a :: b :: rest →
      step ops st = StepRes.ok ⟨st.idx + 1, specBinOp i a b :: rest, st.loops⟩) ∧
    runProg 100 "10 3 -" = CRes.ok [-7] := by
  constructor
  · intro ops st i a b rest h hbin hdiv hst
    rcases i
    case Div =>
      obtain ⟨hb, hov⟩ := hdiv (Or.inl rfl)
      simp [step, h, hst, specBinOp, hb, hov]
    case Mod =>
      obtain ⟨hb, hov⟩ := hdiv (Or.inr rfl)
      simp [step, h, hst, specBinOp, hb, hov]
    case Dup => simp [isBinary] at hbin
    case Drop => simp [isBinary] at hbin
    all_goals simp [step, h, hst, specBinOp]
  · decide

/-- C1 counterexample: the original claim says the program with tokens
10, 3, minus yields the stack holding 7 (computing `second - first`); the
code computes `first - second` = 3 - 10 and yields -7. -/
theorem claim_C1_counterexample :
    runProg 100 "10 3 -" = CRes.ok [-7] ∧ runProg 100 "10 3 -" ≠ CRes.ok [7] := by
  constructor
  · decide
  · decide

theorem claim_C1_witness :
    step [Op.Int Intrinsic.Sub] ⟨0, [3, 10], []⟩ =
      StepRes.ok ⟨1, [specBinOp Intrinsic.Sub 3 10], []⟩ :=
  claim_C1.1 [Op.Int Intrinsic.Sub] ⟨0, [3, 10], []⟩ Intrinsic.Sub 3 10 []
    (by decide) (by decide) (by decide) rfl

/-- C3 (amended): executing `BElse s e` stores `e` into the instruction
pointer and then, like every instruction, the pointer is incremented at the
bottom of the loop body; the state after the full step therefore has
instruction pointer `e + 1`, so the next operation executed is the one ONE
PAST the block terminator at `e`, not the terminator itself as the original
claim states.  The operand and loop-marker stacks are unchanged. -/
theorem claim_C3 :
    ∀ (ops : List Op) (st : MState) (s e : Nat),
      ops[st.idx]? = some (Op.BElse s e) →
      step ops st = StepRes.ok ⟨e + 1, st.stack, st.loops⟩ := by
  intro ops st s e h
  simp [step, h]

/-- C3 counterexample: in the parse of the two-branch conditional program
(tokens 1, block start, 99, else, 88, block end) the else head at index 3 is
`BElse 1 5`; stepping from instruction pointer 3 yields pointer 6, not 5:
the operation at `endIdx` = 5 (the terminator `BEnd 3`) is skipped, contrary
to the claim that it is executed next. -/
theorem claim_C3_counterexample :
    step [Op.Push 1, Op.BStart 3 5, Op.Push 99, Op.BElse 1 5, Op.Push 88, Op.BEnd 3]
        ⟨3, [99], []⟩ = StepRes.ok ⟨6, [99], []⟩ ∧ (6 : Nat) ≠ 5 := by
  constructor
  · decide
  · decide

theorem claim_C3_witness :
    step [Op.BElse 0 7] ⟨0, [], []⟩ = StepRes.ok ⟨8, [], []⟩ :=
  claim_C3 [Op.BElse 0 7] ⟨0, [], []⟩ 0 7 (by decide)

/-- C4 (amended): on whitespace-only input `lex` does NOT return an empty
token sequence: it returns one empty `Word` token per whitespace character
(the source pushes `lex_token` of the current — possibly empty — run on
every whitespace character), so the output has the same length as the
input and is non-empty whenever the input is. -/
theorem claim_C4 :
    ∀ s : String, (∀ c ∈ s.toList, c.isWhitespace = true) →
      lex s = List.replicate s.length (Token.Word "") ∧ (s ≠ "" → lex s ≠ []) := by
  intro s h
  have hl := lex_ws s h
  refine ⟨hl, fun hne hnil => ?_⟩
  rw [hl] at hnil
  rw [List.replicate_eq_nil_iff] at hnil
  exact hne (by cases s with
    | mk data =>
      cases data with
      | nil => rfl
      | cons c cs => simp [String.length] at hnil)

/-- C4 counterexample: the original claim says `lex` of whitespace-only
input is the empty token sequence; on a single space it is the singleton
list holding one empty word token. -/
theorem claim_C4_counterexample :
    lex " " = [Token.Word ""] ∧ lex " " ≠ [] := by
  constructor
  · decide
  · decide

theorem claim_C4_witness :
    lex " " = List.replicate " ".length (Token.Word "") ∧ (" " ≠ "" → lex " " ≠ []) :=
  claim_C4 " " (by decide)

/-- C5: a non-zero condition in front of an if/else block executes only the
then body and a zero condition executes only the else body: the program with
tokens 1, block start, 99, else, 88, block end yields the stack holding 99,
and the same program with leading 0 yields the stack holding 88. -/
theorem claim_C5 :
    runProg 100 "1 \x7b 99 \x7d\x7b 88 \x7d" = CRes.ok [99] ∧
    runProg 100 "0 \x7b 99 \x7d\x7b 88 \x7d" = CRes.ok [88] := by
  constructor
  · decide
  · decide

/-- C7: the interpreter fails with a runtime error — independently of the
remaining fuel, i.e. executing nothing further — whenever the operation at
the instruction pointer needs more operands than the stack holds (in
particular the one-instruction program consisting of plus alone), and
whenever division or remainder finds a zero divisor (the second-popped
operand); the run of the empty operation sequence succeeds with the empty
stack. -/
theorem claim_C7 :
    (∀ (fuel : Nat) (ops : List Op) (st : MState) (op : Op),
      ops[st.idx]? = some op → st.stack.length < minOperands op →
      ∃ e, computeAux (fuel + 1) ops st = CRes.err e) ∧
    (∀ (fuel : Nat) (ops : List Op) (st : MState) (i : Intrinsic) (a : I64) (rest : List I64),
      ops[st.idx]? = some (Op.Int i) → (i = Intrinsic.Div ∨ i = Intrinsic.Mod) →
      st.stack = a :: 0 :: rest →
      ∃ e, computeAux (fuel + 1) ops st = CRes.err e) ∧
    (∀ fuel : Nat, run (fuel + 1) [] = CRes.ok []) ∧
    (∃ e, runProg 10 "+" = CRes.err e) := by
  refine ⟨?_, ?_, ?_, ?_⟩
  · intro fuel ops st op h hlen
    obtain ⟨hidx, -⟩ := List.getElem?_eq_some.mp h
    obtain ⟨e, he⟩ := step_underflow ops st op h hlen
    exact ⟨e, by simp [computeAux, hidx, he]⟩
  · intro fuel ops st i a rest h hi hst
    have hidx : st.idx < ops.length := (List.getElem?_eq_some.mp h).1
    have herr : ∃ e, step ops st = StepRes.err e := by
      rcases hi with rfl | rfl
      · simp [step, h, hst]
      · simp [step, h, hst]
    obtain ⟨e, he⟩ := herr
    exact ⟨e, by simp [computeAux, hidx, he]⟩
  · intro fuel
    simp [run, computeAux]
  · exact ⟨"Even less parameters", by decide⟩

theorem claim_C7_witness :
    (∃ e, computeAux 1 [Op.Int Intrinsic.Add] ⟨0, [], []⟩ = CRes.err e) ∧
    (∃ e, computeAux 1 [Op.Int Intrinsic.Div] ⟨0, [1, 0], []⟩ = CRes.err e) ∧
    run 1 [] = CRes.ok [] :=
  ⟨claim_C7.1 0 [Op.Int Intrinsic.Add] ⟨0, [], []⟩ (Op.Int Intrinsic.Add)
      (by decide) (by decide),
    claim_C7.2.1 0 [Op.Int Intrinsic.Div] ⟨0, [1, 0], []⟩ Intrinsic.Div 1 []
      (by decide) (Or.inl rfl) rfl,
    claim_C7.2.2.1 0⟩

/-- Classification of `lex_token` over the ASCII fragment: a token matching
the integer-literal pattern with ASCII digits yields `Number` with the
exact parsed value, whose absolute value is below 2^63 — so on such tokens
the underlying `parse::<i64>().unwrap()` cannot fail — and every other
token yields `Word` with the exact original text.  This totality does NOT
extend to the whole program: the real regex digit class is Unicode-wide,
and on a token holding a non-ASCII Unicode decimal digit the regex matches
while `parse::<i64>` rejects it, so the `unwrap` panics (see `isIntLitL`). -/
theorem lex_token_ascii (s : String) :
    (isIntLit s = true →
        lex_token s = Token.Number (parseIntLit s) ∧ (parseIntLit s).natAbs < 2 ^ 63) ∧
      (isIntLit s = false → lex_token s = Token.Word s) := by
  constructor
  · intro hlit
    exact ⟨by simp [lex_token, hlit], parseIntLitL_lt s.toList hlit⟩
  · intro hlit
    simp [lex_token, hlit]

/-- C9: the parser silently skips every empty word token, leaving its state
(output, emit counter, pending stack) unchanged; consequently parsing the
lex of a whitespace-only string yields the empty operation sequence — even
though `lex` emits one empty word token per whitespace character — and
running that program yields the empty stack. -/
theorem claim_C9 :
    (∀ (st : PState) (ts : List Token),
      parseAux (Token.Word "" :: ts) st = parseAux ts st) ∧
    (∀ s : String, (∀ c ∈ s.toList, c.isWhitespace = true) →
      parse (lex s) = Except.ok [] ∧ runProg 1 s = CRes.ok []) := by
  constructor
  · intro st ts
    rfl
  · intro s h
    have hl := lex_ws s h
    have hp : parse (lex s) = Except.ok [] := by
      rw [hl]
      simp [parse, parseAux_replicate_empty]
    exact ⟨hp, by simp [runProg, hp, run, computeAux]⟩

theorem claim_C9_witness :
    parse (lex " ") = Except.ok [] ∧ runProg 1 " " = CRes.ok [] :=
  claim_C9.2 " " (by decide)

/-! ### Parser invariant machinery -/

theorem lookupOp_bstart (w : String) (a b : Nat)
    (hop : lookupOp w = some (Op.BStart a b)) : a = 0 ∧ b = 0 := by
  unfold lookupOp at hop
  rcases eq_or_ne w "+" with h1 | h1
  · rw [if_pos h1] at hop
    exact Op.noConfusion (Option.some.inj hop)
  rw [if_neg h1] at hop
  rcases eq_or_ne w "-" with h2 | h2
  · rw [if_pos h2] at hop
    exact Op.noConfusion (Option.some.inj hop)
  rw [if_neg h2] at hop
  rcases eq_or_ne w "*" with h3 | h3
  · rw [if_pos h3] at hop
    exact Op.noConfusion (Option.some.inj hop)
  rw [if_neg h3] at hop
  rcases eq_or_ne w "/" with h4 | h4
  · rw [if_pos h4] at hop
    exact Op.noConfusion (Option.some.inj hop)
  rw [if_neg h4] at hop
  rcases eq_or_ne w "%" with h5 | h5
  · rw [if_pos h5] at hop
    exact Op.noConfusion (Option.some.inj hop)
  rw [if_neg h5] at hop
  rcases eq_or_ne w "<" with h6 | h6
  · rw [if_pos h6] at hop
    exact Op.noConfusion (Option.some.inj hop)
  rw [if_neg h6] at hop
  rcases eq_or_ne w ">" with h7 | h7
  · rw [if_pos h7] at hop
    exact Op.noConfusion (Option.some.inj hop)
  rw [if_neg h7] at hop
  rcases eq_or_ne w "<=" with h8 | h8
  · rw [if_pos h8] at hop
    exact Op.noConfusion (Option.some.inj hop)
  rw [if_neg h8] at hop
  rcases eq_or_ne w ">=" with h9 | h9
  · rw [if_pos h9] at hop
    exact Op.noConfusion (Option.some.inj hop)
  rw [if_neg h9] at hop
  rcases eq_or_ne w "==" with h10 | h10
  · rw [if_pos h10] at hop
    exact Op.noConfusion (Option.some.inj hop)
  rw [if_neg h10] at hop
  rcases eq_or_ne w "!=" with h11 | h11
  · rw [if_pos h11] at hop
    exact Op.noConfusion (Option.some.inj hop)
  rw [if_neg h11] at hop
  rcases eq_or_ne w ":" with h12 | h12
  · rw [if_pos h12] at hop
    exact Op.noConfusion (Option.some.inj hop)
  rw [if_neg h12] at hop
  rcases eq_or_ne w ";" with h13 | h13
  · rw [if_pos h13] at hop
    exact Op.noConfusion (Option.some.inj hop)
  rw [if_neg h13] at hop
  rcases eq_or_ne w "?" with h14 | h14
  · rw [if_pos h14] at hop
    exact Op.noConfusion (Option.some.inj hop)
  rw [if_neg h14] at hop
  rcases eq_or_ne w "@" with h15 | h15
  · rw [if_pos h15] at hop
    exact Op.noConfusion (Option.some.inj hop)
  rw [if_neg h15] at hop
  rcases eq_or_ne w "\x7b" with h16 | h16
  · rw [if_pos h16] at hop
    obtain ⟨h1, h2⟩ := Op.BStart.inj (Option.some.inj hop); exact ⟨h1.symm, h2.symm⟩
  rw [if_neg h16] at hop
  rcases eq_or_ne w "\x7d\x7b" with h17 | h17
  · rw [if_pos h17] at hop
    exact Op.noConfusion (Option.some.inj hop)
  rw [if_neg h17] at hop
  rcases eq_or_ne w "\x7d" with h18 | h18
  · rw [if_pos h18] at hop
    exact Op.noConfusion (Option.some.inj hop)
  rw [if_neg h18] at hop
  exact Option.noConfusion hop

theorem lookupOp_bend_imp (w : String) (a : Nat)
    (hop : lookupOp w = some (Op.BEnd a)) : w = "\x7d" := by
  unfold lookupOp at hop
  rcases eq_or_ne w "+" with h1 | h1
  · rw [if_pos h1] at hop
    exact Op.noConfusion (Option.some.inj hop)
  rw [if_neg h1] at hop
  rcases eq_or_ne w "-" with h2 | h2
  · rw [if_pos h2] at hop
    exact Op.noConfusion (Option.some.inj hop)
  rw [if_neg h2] at hop
  rcases eq_or_ne w "*" with h3 | h3
  · rw [if_pos h3] at hop
    exact Op.noConfusion (Option.some.inj hop)
  rw [if_neg h3] at hop
  rcases eq_or_ne w "/" with h4 | h4
  · rw [if_pos h4] at hop
    exact Op.noConfusion (Option.some.inj hop)
  rw [if_neg h4] at hop
  rcases eq_or_ne w "%" with h5 | h5
  · rw [if_pos h5] at hop
    exact Op.noConfusion (Option.some.inj hop)
  rw [if_neg h5] at hop
  rcases eq_or_ne w "<" with h6 | h6
  · rw [if_pos h6] at hop
    exact Op.noConfusion (Option.some.inj hop)
  rw [if_neg h6] at hop
  rcases eq_or_ne w ">" with h7 | h7
  · rw [if_pos h7] at hop
    exact Op.noConfusion (Option.some.inj hop)
  rw [if_neg h7] at hop
  rcases eq_or_ne w "<=" with h8 | h8
  · rw [if_pos h8] at hop
    exact Op.noConfusion (Option.some.inj hop)
  rw [if_neg h8] at hop
  rcases eq_or_ne w ">=" with h9 | h9
  · rw [if_pos h9] at hop
    exact Op.noConfusion (Option.some.inj hop)
  rw [if_neg h9] at hop
  rcases eq_or_ne w "==" with h10 | h10
  · rw [if_pos h10] at hop
    exact Op.noConfusion (Option.some.inj hop)
  rw [if_neg h10] at hop
  rcases eq_or_ne w "!=" with h11 | h11
  · rw [if_pos h11] at hop
    exact Op.noConfusion (Option.some.inj hop)
  rw [if_neg h11] at hop
  rcases eq_or_ne w ":" with h12 | h12
  · rw [if_pos h12] at hop
    exact Op.noConfusion (Option.some.inj hop)
  rw [if_neg h12] at hop
  rcases eq_or_ne w ";" with h13 | h13
  · rw [if_pos h13] at hop
    exact Op.noConfusion (Option.some.inj hop)
  rw [if_neg h13] at hop
  rcases eq_or_ne w "?" with h14 | h14
  · rw [if_pos h14] at hop
    exact Op.noConfusion (Option.some.inj hop)
  rw [if_neg h14] at hop
  rcases eq_or_ne w "@" with h15 | h15
  · rw [if_pos h15] at hop
    exact Op.noConfusion (Option.some.inj hop)
  rw [if_neg h15] at hop
  rcases eq_or_ne w "\x7b" with h16 | h16
  · rw [if_pos h16] at hop
    exact Op.noConfusion (Option.some.inj hop)
  rw [if_neg h16] at hop
  rcases eq_or_ne w "\x7d\x7b" with h17 | h17
  · rw [if_pos h17] at hop
    exact Op.noConfusion (Option.some.inj hop)
  rw [if_neg h17] at hop
  rcases eq_or_ne w "\x7d" with h18 | h18
  · rw [if_pos h18] at hop
    exact h18
  rw [if_neg h18] at hop
  exact Option.noConfusion hop

theorem lookupOp_rend : lookupOp "\x7d" = some (Op.BEnd 0) := rfl

theorem getElem?_lt {α : Type} {l : List α} {i : Nat} {a : α}
    (h : l[i]? = some a) : i < l.length :=
  (List.getElem?_eq_some.mp h).1

theorem pendShape_append (res l : List Op) (p : Nat) (h : PendShape res p) :
    PendShape (res ++ l) p := by
  rcases h with h1 | ⟨o, ho, h1, h2⟩
  · left
    rw [List.getElem?_append_left (getElem?_lt h1)]
    exact h1
  · right
    refine ⟨o, ho, ?_, ?_⟩
    · rw [List.getElem?_append_left (getElem?_lt h1)]
      exact h1
    · rw [List.getElem?_append_left (getElem?_lt h2)]
      exact h2

theorem pendShape_set (res : List Op) (p k : Nat) (v : Op) (h : PendShape res p)
    (hkp : k ≠ p) (hko : ∀ o, res[p]? = some (Op.BElse o 0) → k ≠ o) :
    PendShape (res.set k v) p := by
  rcases h with h1 | ⟨o, ho, h1, h2⟩
  · left
    rw [List.getElem?_set_ne hkp]
    exact h1
  · right
    refine ⟨o, ho, ?_, ?_⟩
    · rw [List.getElem?_set_ne hkp]
      exact h1
    · rw [List.getElem?_set_ne (hko o h1)]
      exact h2

theorem finishedAt_append (res l : List Op) (e bi : Nat) (h : finishedAt res e bi) :
    finishedAt (res ++ l) e bi := by
  obtain ⟨hbe, hca⟩ := h
  refine ⟨hbe, ?_⟩
  rcases hca with h1 | ⟨o, ho, h1, h2⟩
  · left
    rw [List.getElem?_append_left (getElem?_lt h1)]
    exact h1
  · right
    refine ⟨o, ho, ?_, ?_⟩
    · rw [List.getElem?_append_left (getElem?_lt h1)]
      exact h1
    · rw [List.getElem?_append_left (getElem?_lt h2)]
      exact h2

theorem Done_append (res : List Op) (x : Op) (hd : Done res) (hx : isBEnd x = false) :
    Done (res ++ [x]) := by
  intro e bi he
  have hlt : e < res.length + 1 := by simpa using getElem?_lt he
  by_cases h : e < res.length
  · rw [List.getElem?_append_left h] at he
    exact finishedAt_append _ _ _ _ (hd e bi he)
  · have he' : e = res.length := by omega
    subst he'
    rw [List.getElem?_concat_length] at he
    injection he with hx'
    subst hx'
    simp [isBEnd] at hx

theorem Done_set (res : List Op) (i : Nat) (w v : Op) (hd : Done res)
    (hw : res[i]? = some w) (hwu : isUnfinished w = true) (hv : isBEnd v = false) :
    Done (res.set i v) := by
  have hilen : i < res.length := getElem?_lt hw
  intro e bi he
  by_cases hei : i = e
  · subst hei
    rw [List.getElem?_set_self hilen] at he
    injection he with h'
    subst h'
    simp [isBEnd] at hv
  · rw [List.getElem?_set_ne hei] at he
    obtain ⟨hbe, hca⟩ := hd e bi he
    refine ⟨hbe, ?_⟩
    rcases hca with h1 | ⟨o, ho, h1, h2⟩
    · left
      have hib : i ≠ bi := by
        intro hh
        subst hh
        rw [h1] at hw
        injection hw with hww
        rw [← hww] at hwu
        simp [isUnfinished] at hwu
        omega
      rw [List.getElem?_set_ne hib]
      exact h1
    · right
      have hib : i ≠ bi := by
        intro hh
        subst hh
        rw [h1] at hw
        injection hw with hww
        rw [← hww] at hwu
        simp [isUnfinished] at hwu
        omega
      have hio : i ≠ o := by
        intro hh
        subst hh
        rw [h2] at hw
        injection hw with hww
        rw [← hww] at hwu
        simp [isUnfinished] at hwu
        omega
      refine ⟨o, ho, ?_, ?_⟩
      · rw [List.getElem?_set_ne hib]
        exact h1
      · rw [List.getElem?_set_ne hio]
        exact h2

theorem Done_concat_bend (res2 : List Op) (bi : Nat) (hd : Done res2)
    (hbi : bi < res2.length)
    (hfin : res2[bi]? = some (Op.BStart bi res2.length) ∨
      ∃ o, o < bi ∧ res2[bi]? = some (Op.BElse o res2.length) ∧
        res2[o]? = some (Op.BStart bi res2.length)) :
    Done (res2 ++ [Op.BEnd bi]) := by
  intro e bi' he
  have hlt : e < res2.length + 1 := by simpa using getElem?_lt he
  by_cases h : e < res2.length
  · rw [List.getElem?_append_left h] at he
    exact finishedAt_append _ _ _ _ (hd e bi' he)
  · have he' : e = res2.length := by omega
    subst he'
    rw [List.getElem?_concat_length] at he
    injection he with h'
    injection h' with h''
    subst h''
    refine ⟨hbi, ?_⟩
    rcases hfin with h1 | ⟨o, ho, h1, h2⟩
    · left
      rw [List.getElem?_append_left hbi]
      exact h1
    · right
      refine ⟨o, ho, ?_, ?_⟩
      · rw [List.getElem?_append_left hbi]
        exact h1
      · rw [List.getElem?_append_left (getElem?_lt h2)]
        exact h2

theorem parseStep_number_eq (st : PState) (n : I64) :
    parseStep st (Token.Number n) =
      Except.ok ⟨st.res ++ [Op.Push n], st.idx + 1, st.pending⟩ := rfl

theorem parseStep_empty_eq (st : PState) :
    parseStep st (Token.Word "") = Except.ok st := rfl

theorem parseStep_unknown_eq (st : PState) (w : String) (hw : ¬(w = ""))
    (hop : lookupOp w = none) :
    parseStep st (Token.Word w) = Except.error "unknown word" := by
  simp [parseStep, hw, hop]

theorem parseStep_other_eq (st : PState) (w : String) (op : Op) (hw : ¬(w = ""))
    (hop : lookupOp w = some op)
    (h1 : ∀ a b, op ≠ Op.BStart a b) (h2 : ∀ a b, op ≠ Op.BElse a b)
    (h3 : ∀ a, op ≠ Op.BEnd a) :
    parseStep st (Token.Word w) =
      Except.ok ⟨st.res ++ [op], st.idx + 1, st.pending⟩ := by
  rcases op with n | i | _ | _ | ⟨a, b⟩ | ⟨a, b⟩ | a
  · simp [parseStep, hw, hop]
  · simp [parseStep, hw, hop]
  · simp [parseStep, hw, hop]
  · simp [parseStep, hw, hop]
  · exact absurd rfl (h1 a b)
  · exact absurd rfl (h2 a b)
  · exact absurd rfl (h3 a)

theorem parseStep_bstart_eq (st : PState) (w : String) (a b : Nat) (hw : ¬(w = ""))
    (hop : lookupOp w = some (Op.BStart a b)) :
    parseStep st (Token.Word w) =
      Except.ok ⟨st.res ++ [Op.BStart a b], st.idx + 1, st.idx :: st.pending⟩ := by
  simp [parseStep, hw, hop]

theorem parseStep_belse_err (st : PState) (w : String) (a b : Nat) (hw : ¬(w = ""))
    (hop : lookupOp w = some (Op.BElse a b)) (hp : st.pending = []) :
    parseStep st (Token.Word w) = Except.error "pop of empty block stack" := by
  simp [parseStep, hw, hop, hp]

theorem parseStep_belse_eq (st : PState) (w : String) (a b bi : Nat) (rest : List Nat)
    (hw : ¬(w = "")) (hop : lookupOp w = some (Op.BElse a b))
    (hp : st.pending = bi :: rest) (hbil : bi < st.res.length) :
    parseStep st (Token.Word w) =
      Except.ok ⟨(st.res.set bi (Op.BStart st.idx 0)) ++ [Op.BElse bi 0],
        st.idx + 1, st.idx :: rest⟩ := by
  have hx : st.res[bi]? = some st.res[bi] := List.getElem?_eq_getElem hbil
  simp [parseStep, hw, hop, hp, hx]

theorem parseStep_bend_err (st : PState) (w : String) (a : Nat) (hw : ¬(w = ""))
    (hop : lookupOp w = some (Op.BEnd a)) (hp : st.pending = []) :
    parseStep st (Token.Word w) = Except.error "pop of empty block stack" := by
  simp [parseStep, hw, hop, hp]

theorem parseStep_bend_start_eq (st : PState) (w : String) (a x y bi : Nat) (rest : List Nat)
    (hw : ¬(w = "")) (hop : lookupOp w = some (Op.BEnd a))
    (hp : st.pending = bi :: rest) (hbi : st.res[bi]? = some (Op.BStart x y)) :
    parseStep st (Token.Word w) =
      Except.ok ⟨(st.res.set bi (Op.BStart bi st.idx)) ++ [Op.BEnd bi], st.idx + 1, rest⟩ := by
  simp [parseStep, hw, hop, hp, hbi]

theorem parseStep_bend_else_eq (st : PState) (w : String) (a o en bi : Nat) (rest : List Nat)
    (hw : ¬(w = "")) (hop : lookupOp w = some (Op.BEnd a))
    (hp : st.pending = bi :: rest) (hbi : st.res[bi]? = some (Op.BElse o en))
    (hne : o ≠ bi) (hol : o < st.res.length) :
    parseStep st (Token.Word w) =
      Except.ok ⟨((st.res.set bi (Op.BElse o st.idx)).set o (Op.BStart bi st.idx)) ++ [Op.BEnd bi],
        st.idx + 1, rest⟩ := by
  have hbil : bi < st.res.length := getElem?_lt hbi
  have hx : (st.res.set bi (Op.BElse o st.idx))[o]? = some st.res[o] := by
    rw [List.getElem?_set_ne (by omega)]
    exact List.getElem?_eq_getElem hol
  have h2 : (((st.res.set bi (Op.BElse o st.idx)).set o (Op.BStart bi st.idx)) ++
      [Op.BEnd bi])[bi]? = some (Op.BElse o st.idx) := by
    rw [List.getElem?_append_left (by simp [hbil])]
    rw [List.getElem?_set_ne hne]
    exact List.getElem?_set_self hbil
  simp [parseStep, hw, hop, hp, hbi, hx, h2]

theorem inv_append (st : PState) (x : Op) (hinv : ParseInv st) (hx : isBEnd x = false) :
    ParseInv ⟨st.res ++ [x], st.idx + 1, st.pending⟩ := by
  obtain ⟨hidx, hlt, hsort, hshape, hdone⟩ := hinv
  refine ⟨?_, ?_, ?_, ?_, ?_⟩
  · simp [hidx]
  · intro p hp
    have := hlt p hp
    simp
    omega
  · exact hsort
  · intro p hp
    exact pendShape_append _ _ _ (hshape p hp)
  · exact Done_append _ _ hdone hx

theorem inv_bstart (st : PState) (hinv : ParseInv st) :
    ParseInv ⟨st.res ++ [Op.BStart 0 0], st.idx + 1, st.idx :: st.pending⟩ := by
  obtain ⟨hidx, hlt, hsort, hshape, hdone⟩ := hinv
  refine ⟨?_, ?_, ?_, ?_, ?_⟩
  · simp [hidx]
  · intro p hp
    rcases List.mem_cons.mp hp with rfl | hp
    · simp
      omega
    · have := hlt p hp
      simp
      omega
  · rw [List.pairwise_cons]
    refine ⟨fun p hp => ?_, hsort⟩
    have := hlt p hp
    omega
  · intro p hp
    rcases List.mem_cons.mp hp with rfl | hp
    · left
      rw [hidx]
      exact List.getElem?_concat_length _ _
    · exact pendShape_append _ _ _ (hshape p hp)
  · exact Done_append _ _ hdone (by simp [isBEnd])

theorem inv_belse (st : PState) (bi : Nat) (rest : List Nat) (hinv : ParseInv st)
    (hp : st.pending = bi :: rest) :
    ParseInv ⟨(st.res.set bi (Op.BStart st.idx 0)) ++ [Op.BElse bi 0],
      st.idx + 1, st.idx :: rest⟩ := by
  obtain ⟨hidx, hlt, hsort, hshape, hdone⟩ := hinv
  have hbil : bi < st.res.length := hlt bi (by rw [hp]; simp)
  have hbitop : ∀ p ∈ rest, p < bi := by
    have h := hsort
    rw [hp, List.pairwise_cons] at h
    exact h.1
  have hrestsort : rest.Pairwise (fun a b => b < a) := by
    have h := hsort
    rw [hp, List.pairwise_cons] at h
    exact h.2
  have hrestlt : ∀ p ∈ rest, p < st.res.length := fun p hp' =>
    hlt p (by rw [hp]; simp [hp'])
  have hbish : PendShape st.res bi := hshape bi (by rw [hp]; simp)
  refine ⟨?_, ?_, ?_, ?_, ?_⟩
  · simp [hidx]
  · intro p hp'
    rcases List.mem_cons.mp hp' with rfl | hp'
    · simp
      omega
    · have := hrestlt p hp'
      simp
      omega
  · rw [List.pairwise_cons]
    refine ⟨fun p hp' => ?_, hrestsort⟩
    have := hrestlt p hp'
    omega
  · intro p hp'
    rcases List.mem_cons.mp hp' with rfl | hp'
    · right
      refine ⟨bi, by omega, ?_, ?_⟩
      · have hc := List.getElem?_concat_length
          (st.res.set bi (Op.BStart st.idx 0)) (Op.BElse bi 0)
        rw [List.length_set, ← hidx] at hc
        exact hc
      · rw [List.getElem?_append_left (by simp [hbil])]
        exact List.getElem?_set_self hbil
    · apply pendShape_append
      refine pendShape_set _ _ _ _ (hshape p (by rw [hp]; simp [hp'])) ?_ ?_
      · have := hbitop p hp'
        omega
      · intro o ho'
        rcases hshape p (by rw [hp]; simp [hp']) with h1 | ⟨o', ho2, h1, h2⟩
        · rw [h1] at ho'
          exact Op.noConfusion (Option.some.inj ho')
        · rw [h1] at ho'
          obtain ⟨hh1, -⟩ := Op.BElse.inj (Option.some.inj ho')
          have := hbitop p hp'
          omega
  · apply Done_append
    · rcases hbish with h1 | ⟨o, ho2, h1, h2⟩
      · exact Done_set _ _ _ _ hdone h1 (by simp [isUnfinished]) (by simp [isBEnd])
      · exact Done_set _ _ _ _ hdone h1 (by simp [isUnfinished]) (by simp [isBEnd])
    · simp [isBEnd]

theorem inv_bend_start (st : PState) (bi : Nat) (rest : List Nat) (hinv : ParseInv st)
    (hp : st.pending = bi :: rest) (hbi : st.res[bi]? = some (Op.BStart 0 0)) :
    ParseInv ⟨(st.res.set bi (Op.BStart bi st.idx)) ++ [Op.BEnd bi], st.idx + 1, rest⟩ := by
  obtain ⟨hidx, hlt, hsort, hshape, hdone⟩ := hinv
  have hbil : bi < st.res.length := hlt bi (by rw [hp]; simp)
  have hbitop : ∀ p ∈ rest, p < bi := by
    have h := hsort
    rw [hp, List.pairwise_cons] at h
    exact h.1
  have hrestsort : rest.Pairwise (fun a b => b < a) := by
    have h := hsort
    rw [hp, List.pairwise_cons] at h
    exact h.2
  have hrestlt : ∀ p ∈ rest, p < st.res.length := fun p hp' =>
    hlt p (by rw [hp]; simp [hp'])
  refine ⟨?_, ?_, ?_, ?_, ?_⟩
  · simp [hidx]
  · intro p hp'
    have := hrestlt p hp'
    simp
    omega
  · exact hrestsort
  · intro p hp'
    apply pendShape_append
    refine pendShape_set _ _ _ _ (hshape p (by rw [hp]; simp [hp'])) ?_ ?_
    · have := hbitop p hp'
      omega
    · intro o ho'
      rcases hshape p (by rw [hp]; simp [hp']) with h1 | ⟨o', ho2, h1, h2⟩
      · rw [h1] at ho'
        exact Op.noConfusion (Option.some.inj ho')
      · rw [h1] at ho'
        obtain ⟨hh1, -⟩ := Op.BElse.inj (Option.some.inj ho')
        have := hbitop p hp'
        omega
  · have hd2 : Done (st.res.set bi (Op.BStart bi st.idx)) :=
      Done_set _ _ _ _ hdone hbi (by simp [isUnfinished]) (by simp [isBEnd])
    have hlen : (st.res.set bi (Op.BStart bi st.idx)).length = st.res.length := by simp
    apply Done_concat_bend _ _ hd2 (by rw [hlen]; exact hbil)
    left
    rw [hlen, ← hidx]
    exact List.getElem?_set_self hbil

theorem inv_bend_else (st : PState) (bi o : Nat) (rest : List Nat) (hinv : ParseInv st)
    (hp : st.pending = bi :: rest) (hbi : st.res[bi]? = some (Op.BElse o 0))
    (ho : o < bi) (hoo : st.res[o]? = some (Op.BStart bi 0)) :
    ParseInv ⟨((st.res.set bi (Op.BElse o st.idx)).set o (Op.BStart bi st.idx)) ++
      [Op.BEnd bi], st.idx + 1, rest⟩ := by
  obtain ⟨hidx, hlt, hsort, hshape, hdone⟩ := hinv
  have hbil : bi < st.res.length := hlt bi (by rw [hp]; simp)
  have hol : o < st.res.length := getElem?_lt hoo
  have hbitop : ∀ p ∈ rest, p < bi := by
    have h := hsort
    rw [hp, List.pairwise_cons] at h
    exact h.1
  have hrestsort : rest.Pairwise (fun a b => b < a) := by
    have h := hsort
    rw [hp, List.pairwise_cons] at h
    exact h.2
  have hrestlt : ∀ p ∈ rest, p < st.res.length := fun p hp' =>
    hlt p (by rw [hp]; simp [hp'])
  refine ⟨?_, ?_, ?_, ?_, ?_⟩
  · simp [hidx]
  · intro p hp'
    have := hrestlt p hp'
    simp
    omega
  · exact hrestsort
  · intro p hp'
    have hpbi : p < bi := hbitop p hp'
    have hps := hshape p (by rw [hp]; simp [hp'])
    have hop2 : o ≠ p := by
      intro hh
      subst hh
      rcases hps with h1 | ⟨o', ho2, h1, h2⟩
      · rw [h1] at hoo
        obtain ⟨hh1, -⟩ := Op.BStart.inj (Option.some.inj hoo)
        omega
      · rw [h1] at hoo
        exact Op.noConfusion (Option.some.inj hoo)
    apply pendShape_append
    have hinner : PendShape (st.res.set bi (Op.BElse o st.idx)) p := by
      refine pendShape_set _ _ _ _ hps ?_ ?_
      · omega
      · intro o'' ho''
        rcases hps with h1 | ⟨o', ho2, h1, h2⟩
        · rw [h1] at ho''
          exact Op.noConfusion (Option.some.inj ho'')
        · rw [h1] at ho''
          obtain ⟨hh1, -⟩ := Op.BElse.inj (Option.some.inj ho'')
          omega
    refine pendShape_set _ _ _ _ hinner ?_ ?_
    · exact hop2
    · intro o'' ho''
      rw [List.getElem?_set_ne (by omega : bi ≠ p)] at ho''
      rcases hps with h1 | ⟨o', ho2, h1, h2⟩
      · rw [h1] at ho''
        exact Op.noConfusion (Option.some.inj ho'')
      · rw [h1] at ho''
        obtain ⟨hh1, -⟩ := Op.BElse.inj (Option.some.inj ho'')
        intro hh
        rw [hh1, ← hh] at h2
        rw [h2] at hoo
        obtain ⟨hh2, -⟩ := Op.BStart.inj (Option.some.inj hoo)
        omega
  · have hd1 : Done (st.res.set bi (Op.BElse o st.idx)) :=
      Done_set _ _ _ _ hdone hbi (by simp [isUnfinished]) (by simp [isBEnd])
    have hmid : (st.res.set bi (Op.BElse o st.idx))[o]? = some (Op.BStart bi 0) := by
      rw [List.getElem?_set_ne (by omega : bi ≠ o)]
      exact hoo
    have hd2 : Done ((st.res.set bi (Op.BElse o st.idx)).set o (Op.BStart bi st.idx)) :=
      Done_set _ _ _ _ hd1 hmid (by simp [isUnfinished]) (by simp [isBEnd])
    have hlen2 : ((st.res.set bi (Op.BElse o st.idx)).set o
        (Op.BStart bi st.idx)).length = st.res.length := by simp
    apply Done_concat_bend _ _ hd2 (by rw [hlen2]; exact hbil)
    right
    refine ⟨o, ho, ?_, ?_⟩
    · rw [hlen2, ← hidx]
      rw [List.getElem?_set_ne (by omega : o ≠ bi)]
      exact List.getElem?_set_self hbil
    · rw [hlen2, ← hidx]
      exact List.getElem?_set_self (by rw [List.length_set]; exact hol)

theorem parseInv_init : ParseInv ⟨[], 0, []⟩ := by
  refine ⟨rfl, ?_, ?_, ?_, ?_⟩
  · intro p hp
    simp at hp
  · simp
  · intro p hp
    simp at hp
  · intro e bi he
    simp at he

theorem parseStep_inv (st st' : PState) (t : Token) (hinv : ParseInv st)
    (h : parseStep st t = Except.ok st') : ParseInv st' := by
  rcases t with ⟨w⟩ | ⟨n⟩
  · by_cases hw : w = ""
    · subst hw
      rw [parseStep_empty_eq] at h
      injection h with h
      rw [← h]
      exact hinv
    · cases hop : lookupOp w with
      | none =>
        rw [parseStep_unknown_eq st w hw hop] at h
        exact Except.noConfusion h
      | some op =>
        rcases op with n | i | _ | _ | ⟨a, b⟩ | ⟨a, b⟩ | a
        · rw [parseStep_other_eq st w _ hw hop (by simp) (by simp) (by simp)] at h
          injection h with h
          rw [← h]
          exact inv_append st _ hinv (by simp [isBEnd])
        · rw [parseStep_other_eq st w _ hw hop (by simp) (by simp) (by simp)] at h
          injection h with h
          rw [← h]
          exact inv_append st _ hinv (by simp [isBEnd])
        · rw [parseStep_other_eq st w _ hw hop (by simp) (by simp) (by simp)] at h
          injection h with h
          rw [← h]
          exact inv_append st _ hinv (by simp [isBEnd])
        · rw [parseStep_other_eq st w _ hw hop (by simp) (by simp) (by simp)] at h
          injection h with h
          rw [← h]
          exact inv_append st _ hinv (by simp [isBEnd])
        · obtain ⟨ha, hb⟩ := lookupOp_bstart w a b hop
          subst ha
          subst hb
          rw [parseStep_bstart_eq st w 0 0 hw hop] at h
          injection h with h
          rw [← h]
          exact inv_bstart st hinv
        · cases hp : st.pending with
          | nil =>
            rw [parseStep_belse_err st w a b hw hop hp] at h
            exact Except.noConfusion h
          | cons bi rest =>
            have hbil : bi < st.res.length := hinv.pend_lt bi (by rw [hp]; simp)
            rw [parseStep_belse_eq st w a b bi rest hw hop hp hbil] at h
            injection h with h
            rw [← h]
            exact inv_belse st bi rest hinv hp
        · cases hp : st.pending with
          | nil =>
            rw [parseStep_bend_err st w a hw hop hp] at h
            exact Except.noConfusion h
          | cons bi rest =>
            rcases hinv.pend_shape bi (by rw [hp]; simp) with h1 | ⟨o, ho, h1, h2⟩
            · rw [parseStep_bend_start_eq st w a 0 0 bi rest hw hop hp h1] at h
              injection h with h
              rw [← h]
              exact inv_bend_start st bi rest hinv hp h1
            · rw [parseStep_bend_else_eq st w a o 0 bi rest hw hop hp h1
                (by omega) (getElem?_lt h2)] at h
              injection h with h
              rw [← h]
              exact inv_bend_else st bi o rest hinv hp h1 ho h2
  · rw [parseStep_number_eq] at h
    injection h with h
    rw [← h]
    exact inv_append st _ hinv (by simp [isBEnd])

theorem parseAux_inv (ts : List Token) : ∀ st st' : PState, ParseInv st →
    parseAux ts st = Except.ok st' → ParseInv st' := by
  induction ts with
  | nil =>
    intro st st' hinv h
    injection h with h
    rw [← h]
    exact hinv
  | cons t ts ih =>
    intro st st' hinv h
    simp only [parseAux] at h
    cases hps : parseStep st t with
    | error e =>
      rw [hps] at h
      exact Except.noConfusion h
    | ok st1 =>
      rw [hps] at h
      exact ih st1 st' (parseStep_inv st st1 t hinv hps) h

/-- C2 (amended): for every successful parse and every emitted block
terminator `BEnd bi` at position `e`, the indices are mutually consistent in
the following sense: either there is no else branch and the head `ops[bi]`
is `BStart bi e` — its else-index is its OWN position `bi` (a
self-referential sentinel which the interpreter resolves via the
`el = idx` test to a jump to the end index `e`), NOT the terminator's
position as the original claim states — or there is an else branch and
`ops[bi]` is the else head `BElse o e` whose back-reference `o` is the
block head `BStart bi e`; in both cases the terminator's back-reference is
the head's position (no else) or the else-head's position (else). -/
theorem claim_C2 :
    ∀ (ts : List Token) (ops : List Op), parse ts = Except.ok ops →
      ∀ e bi, ops[e]? = some (Op.BEnd bi) →
        bi < e ∧
          (ops[bi]? = some (Op.BStart bi e) ∨
            ∃ o, o < bi ∧ ops[bi]? = some (Op.BElse o e) ∧
              ops[o]? = some (Op.BStart bi e)) := by
  intro ts ops hparse e bi he
  cases haux : parseAux ts ⟨[], 0, []⟩ with
  | error er =>
    simp [parse, haux] at hparse
  | ok st' =>
    simp only [parse, haux, Except.ok.injEq] at hparse
    have hinv := parseAux_inv ts _ _ parseInv_init haux
    have hf := hinv.done e bi (by rw [hparse]; exact he)
    rw [hparse] at hf
    exact hf

/-- C2 counterexample: parsing the two-token program holding one block-start
and one block-end yields a head `BStart 0 1` whose else-index is 0 — the
head's own position — while the original claim demands it equal the
terminator's position 1. -/
theorem claim_C2_counterexample :
    parse [Token.Word "\x7b", Token.Word "\x7d"] =
        Except.ok [Op.BStart 0 1, Op.BEnd 0] ∧
      Op.BStart 0 1 ≠ Op.BStart 1 1 := by
  constructor
  · rfl
  · decide

theorem claim_C2_witness :
    (0 : Nat) < 1 ∧
      (([Op.BStart 0 1, Op.BEnd 0] : List Op)[0]? = some (Op.BStart 0 1) ∨
        ∃ o, o < 0 ∧ ([Op.BStart 0 1, Op.BEnd 0] : List Op)[0]? = some (Op.BElse o 1) ∧
          ([Op.BStart 0 1, Op.BEnd 0] : List Op)[o]? = some (Op.BStart 0 1)) :=
  claim_C2 [Token.Word "\x7b", Token.Word "\x7d"] [Op.BStart 0 1, Op.BEnd 0]
    (by rfl) 1 0 (by rfl)

theorem countP_set_eq (p : Op → Bool) : ∀ (l : List Op) (k : Nat) (w v : Op),
    l[k]? = some w → p w = false → p v = false →
    (l.set k v).countP p = l.countP p := by
  intro l
  induction l with
  | nil =>
    intro k w v h _ _
    simp at h
  | cons a l ih =>
    intro k w v h hw hv
    cases k with
    | zero =>
      simp only [List.getElem?_cons_zero] at h
      injection h with h
      subst h
      simp [List.set, List.countP_cons, hw, hv]
    | succ k =>
      simp only [List.getElem?_cons_succ] at h
      simp [List.set, List.countP_cons, ih k w v h hw hv]

theorem countBEnd_append (res : List Op) (x : Op) :
    countBEnd (res ++ [x]) = countBEnd res + (if isBEnd x then 1 else 0) := by
  simp [countBEnd, List.countP_append, List.countP_cons]

theorem countBEnd_set (res : List Op) (k : Nat) (w v : Op) (hw : res[k]? = some w)
    (hwb : isBEnd w = false) (hvb : isBEnd v = false) :
    countBEnd (res.set k v) = countBEnd res :=
  countP_set_eq isBEnd res k w v hw hwb hvb

theorem pendShape_not_bend (res : List Op) (bi : Nat) (h : PendShape res bi) :
    ∃ w, res[bi]? = some w ∧ isBEnd w = false := by
  rcases h with h1 | ⟨o, ho, h1, h2⟩
  · exact ⟨_, h1, by simp [isBEnd]⟩
  · exact ⟨_, h1, by simp [isBEnd]⟩

theorem parseStep_count (st st1 : PState) (t : Token) (hinv : ParseInv st)
    (h : parseStep st t = Except.ok st1) :
    countBEnd st1.res = countBEnd st.res +
      (if t = Token.Word "\x7d" then 1 else 0) := by
  rcases t with ⟨w⟩ | ⟨n⟩
  · by_cases hw : w = ""
    · subst hw
      rw [parseStep_empty_eq] at h
      injection h with h
      rw [← h, if_neg (by decide)]
      simp
    · cases hop : lookupOp w with
      | none =>
        rw [parseStep_unknown_eq st w hw hop] at h
        exact Except.noConfusion h
      | some op =>
        have hwof : (∀ a2 : Nat, op ≠ Op.BEnd a2) → ¬(Token.Word w = Token.Word "\x7d") := by
          intro hne hww
          injection hww with hww
          subst hww
          rw [lookupOp_rend] at hop
          exact hne 0 (Option.some.inj hop).symm
        rcases op with n | i | _ | _ | ⟨a, b⟩ | ⟨a, b⟩ | a
        · rw [parseStep_other_eq st w _ hw hop (by simp) (by simp) (by simp)] at h
          injection h with h
          rw [← h, countBEnd_append, if_neg (hwof (by simp))]
          simp [isBEnd]
        · rw [parseStep_other_eq st w _ hw hop (by simp) (by simp) (by simp)] at h
          injection h with h
          rw [← h, countBEnd_append, if_neg (hwof (by simp))]
          simp [isBEnd]
        · rw [parseStep_other_eq st w _ hw hop (by simp) (by simp) (by simp)] at h
          injection h with h
          rw [← h, countBEnd_append, if_neg (hwof (by simp))]
          simp [isBEnd]
        · rw [parseStep_other_eq st w _ hw hop (by simp) (by simp) (by simp)] at h
          injection h with h
          rw [← h, countBEnd_append, if_neg (hwof (by simp))]
          simp [isBEnd]
        · rw [parseStep_bstart_eq st w a b hw hop] at h
          injection h with h
          rw [← h, countBEnd_append, if_neg (hwof (by simp))]
          simp [isBEnd]
        · cases hp : st.pending with
          | nil =>
            rw [parseStep_belse_err st w a b hw hop hp] at h
            exact Except.noConfusion h
          | cons bi rest =>
            have hbil : bi < st.res.length := hinv.pend_lt bi (by rw [hp]; simp)
            rw [parseStep_belse_eq st w a b bi rest hw hop hp hbil] at h
            injection h with h
            obtain ⟨w0, hw0, hw0b⟩ :=
              pendShape_not_bend _ _ (hinv.pend_shape bi (by rw [hp]; simp))
            rw [← h, countBEnd_append,
              countBEnd_set st.res bi w0 _ hw0 hw0b (by simp [isBEnd]),
              if_neg (hwof (by simp))]
            simp [isBEnd]
        · have hww : Token.Word w = Token.Word "\x7d" := by
            rw [lookupOp_bend_imp w a hop]
          cases hp : st.pending with
          | nil =>
            rw [parseStep_bend_err st w a hw hop hp] at h
            exact Except.noConfusion h
          | cons bi rest =>
            rcases hinv.pend_shape bi (by rw [hp]; simp) with h1 | ⟨o, ho, h1, h2⟩
            · rw [parseStep_bend_start_eq st w a 0 0 bi rest hw hop hp h1] at h
              injection h with h
              rw [← h, countBEnd_append,
                countBEnd_set st.res bi _ _ h1 (by simp [isBEnd]) (by simp [isBEnd]),
                if_pos hww]
              simp [isBEnd]
            · rw [parseStep_bend_else_eq st w a o 0 bi rest hw hop hp h1
                (by omega) (getElem?_lt h2)] at h
              injection h with h
              have hm1 : (st.res.set bi (Op.BElse o st.idx))[o]? =
                  some (Op.BStart bi 0) := by
                rw [List.getElem?_set_ne (by omega : bi ≠ o)]
                exact h2
              rw [← h, countBEnd_append,
                countBEnd_set _ o _ _ hm1 (by simp [isBEnd]) (by simp [isBEnd]),
                countBEnd_set st.res bi _ _ h1 (by simp [isBEnd]) (by simp [isBEnd]),
                if_pos hww]
              simp [isBEnd]
  · rw [parseStep_number_eq] at h
    injection h with h
    rw [← h, countBEnd_append]
    simp [isBEnd]

theorem parseAux_count (ts : List Token) : ∀ st st' : PState, ParseInv st →
    parseAux ts st = Except.ok st' →
    countBEnd st'.res = countBEnd st.res + countREnd ts := by
  induction ts with
  | nil =>
    intro st st' _ h
    injection h with h
    rw [← h]
    simp [countREnd]
  | cons t ts ih =>
    intro st st' hinv h
    simp only [parseAux] at h
    cases hps : parseStep st t with
    | error e =>
      rw [hps] at h
      exact Except.noConfusion h
    | ok st1 =>
      rw [hps] at h
      have hc := ih st1 st' (parseStep_inv st st1 t hinv hps) h
      have hstep := parseStep_count st st1 t hinv hps
      rw [hc, hstep]
      unfold countREnd
      rw [List.countP_cons]
      by_cases ht : t = Token.Word "\x7d"
      · simp [ht]
        omega
      · simp [ht]

/-- C10: for every token sequence on which the parse loop succeeds, the
final state satisfies the parse invariant: the emit counter equals the
length of the emitted operation sequence; every index on the pending-block
stack is strictly below that length and points at a `BStart` or `BElse`
entry (with, in the else case, an in-bounds back-reference below it), so
every in-place rewrite `res[bi]`, `res[o]` performed by the block arms is
within bounds; and exactly one `BEnd` is emitted per block-terminator
token: the number of `BEnd` entries equals the number of terminator
tokens. -/
theorem claim_C10 :
    ∀ (ts : List Token) (st' : PState), parseAux ts ⟨[], 0, []⟩ = Except.ok st' →
      st'.idx = st'.res.length ∧
        (∀ p ∈ st'.pending, p < st'.res.length ∧ PendShape st'.res p) ∧
        countBEnd st'.res = countREnd ts := by
  intro ts st' h
  have hinv := parseAux_inv ts _ _ parseInv_init h
  refine ⟨hinv.idx_eq, fun p hp => ⟨hinv.pend_lt p hp, hinv.pend_shape p hp⟩, ?_⟩
  have hc := parseAux_count ts _ _ parseInv_init h
  simpa [countBEnd] using hc

theorem claim_C10_witness :
    (2 : Nat) = ([Op.BStart 0 1, Op.BEnd 0] : List Op).length ∧
      (∀ p ∈ ([] : List Nat),
        p < ([Op.BStart 0 1, Op.BEnd 0] : List Op).length ∧
          PendShape [Op.BStart 0 1, Op.BEnd 0] p) ∧
      countBEnd [Op.BStart 0 1, Op.BEnd 0] =
        countREnd [Token.Word "\x7b", Token.Word "\x7d"] :=
  claim_C10 [Token.Word "\x7b", Token.Word "\x7d"]
    ⟨[Op.BStart 0 1, Op.BEnd 0], 2, []⟩ (by rfl)

theorem parseAux_fail_iff (ts : List Token) : ∀ st : PState, ParseInv st →
    ((∃ e, parseAux ts st = Except.error e) ↔
      (hasBadWordB ts = true ∨ underflowB st.pending.length ts = true)) := by
  induction ts with
  | nil =>
    intro st _
    constructor
    · rintro ⟨e, he⟩
      simp [parseAux] at he
    · rintro (h | h) <;> simp [hasBadWordB, underflowB] at h
  | cons t ts ih =>
    intro st hinv
    rcases t with ⟨w⟩ | ⟨n⟩
    · by_cases hw : w = ""
      · subst hw
        have h1 : parseAux (Token.Word "" :: ts) st = parseAux ts st := rfl
        have h2 : hasBadWordB (Token.Word "" :: ts) = hasBadWordB ts := by
          simp [hasBadWordB]
        have h3 : underflowB st.pending.length (Token.Word "" :: ts) =
            underflowB st.pending.length ts := by
          simp [underflowB]
        rw [h1, h2, h3]
        exact ih st hinv
      · cases hop : lookupOp w with
        | none =>
          constructor
          · intro _
            left
            simp [hasBadWordB, hw, hop]
          · intro _
            exact ⟨"unknown word", by
              simp [parseAux, parseStep_unknown_eq st w hw hop]⟩
        | some op =>
          have hbw : hasBadWordB (Token.Word w :: ts) = hasBadWordB ts := by
            simp [hasBadWordB, hop]
          rcases op with n | i | _ | _ | ⟨a, b⟩ | ⟨a, b⟩ | a
          · have hstep := parseStep_other_eq st w _ hw hop (by simp) (by simp) (by simp)
            have hred : parseAux (Token.Word w :: ts) st =
                parseAux ts ⟨st.res ++ [Op.Push n], st.idx + 1, st.pending⟩ := by
              simp [parseAux, hstep]
            have hu : underflowB st.pending.length (Token.Word w :: ts) =
                underflowB st.pending.length ts := by
              simp [underflowB, hw, hop]
            rw [hred, hbw, hu]
            exact ih _ (parseStep_inv st _ _ hinv hstep)
          · have hstep := parseStep_other_eq st w _ hw hop (by simp) (by simp) (by simp)
            have hred : parseAux (Token.Word w :: ts) st =
                parseAux ts ⟨st.res ++ [Op.Int i], st.idx + 1, st.pending⟩ := by
              simp [parseAux, hstep]
            have hu : underflowB st.pending.length (Token.Word w :: ts) =
                underflowB st.pending.length ts := by
              simp [underflowB, hw, hop]
            rw [hred, hbw, hu]
            exact ih _ (parseStep_inv st _ _ hinv hstep)
          · have hstep := parseStep_other_eq st w _ hw hop (by simp) (by simp) (by simp)
            have hred : parseAux (Token.Word w :: ts) st =
                parseAux ts ⟨st.res ++ [Op.Cond], st.idx + 1, st.pending⟩ := by
              simp [parseAux, hstep]
            have hu : underflowB st.pending.length (Token.Word w :: ts) =
                underflowB st.pending.length ts := by
              simp [underflowB, hw, hop]
            rw [hred, hbw, hu]
            exact ih _ (parseStep_inv st _ _ hinv hstep)
          · have hstep := parseStep_other_eq st w _ hw hop (by simp) (by simp) (by simp)
            have hred : parseAux (Token.Word w :: ts) st =
                parseAux ts ⟨st.res ++ [Op.Zaloop], st.idx + 1, st.pending⟩ := by
              simp [parseAux, hstep]
            have hu : underflowB st.pending.length (Token.Word w :: ts) =
                underflowB st.pending.length ts := by
              simp [underflowB, hw, hop]
            rw [hred, hbw, hu]
            exact ih _ (parseStep_inv st _ _ hinv hstep)
          · have hstep := parseStep_bstart_eq st w a b hw hop
            have hred : parseAux (Token.Word w :: ts) st =
                parseAux ts ⟨st.res ++ [Op.BStart a b], st.idx + 1,
                  st.idx :: st.pending⟩ := by
              simp [parseAux, hstep]
            have hu : underflowB st.pending.length (Token.Word w :: ts) =
                underflowB (st.pending.length + 1) ts := by
              simp [underflowB, hw, hop]
            rw [hred, hbw, hu]
            exact ih _ (parseStep_inv st _ _ hinv hstep)
          · cases hp : st.pending with
            | nil =>
              constructor
              · intro _
                right
                simp [underflowB, hw, hop, hp]
              · intro _
                exact ⟨"pop of empty block stack", by
                  simp [parseAux, parseStep_belse_err st w a b hw hop hp]⟩
            | cons bi rest =>
              have hbil : bi < st.res.length := hinv.pend_lt bi (by rw [hp]; simp)
              have hstep := parseStep_belse_eq st w a b bi rest hw hop hp hbil
              have hred : parseAux (Token.Word w :: ts) st =
                  parseAux ts ⟨(st.res.set bi (Op.BStart st.idx 0)) ++ [Op.BElse bi 0],
                    st.idx + 1, st.idx :: rest⟩ := by
                simp [parseAux, hstep]
              have hu : underflowB (bi :: rest).length (Token.Word w :: ts) =
                  underflowB (bi :: rest).length ts := by
                simp [underflowB, hw, hop]
              rw [hred, hbw, hu]
              have := ih _ (parseStep_inv st _ _ hinv hstep)
              simpa using this
          · cases hp : st.pending with
            | nil =>
              constructor
              · intro _
                right
                simp [underflowB, hw, hop, hp]
              · intro _
                exact ⟨"pop of empty block stack", by
                  simp [parseAux, parseStep_bend_err st w a hw hop hp]⟩
            | cons bi rest =>
              rcases hinv.pend_shape bi (by rw [hp]; simp) with h1 | ⟨o, ho, h1, h2⟩
              · have hstep := parseStep_bend_start_eq st w a 0 0 bi rest hw hop hp h1
                have hred : parseAux (Token.Word w :: ts) st =
                    parseAux ts ⟨(st.res.set bi (Op.BStart bi st.idx)) ++ [Op.BEnd bi],
                      st.idx + 1, rest⟩ := by
                  simp [parseAux, hstep]
                have hu : underflowB (bi :: rest).length (Token.Word w :: ts) =
                    underflowB ((bi :: rest).length - 1) ts := by
                  simp [underflowB, hw, hop]
                rw [hred, hbw, hu]
                have := ih _ (parseStep_inv st _ _ hinv hstep)
                simpa using this
              · have hstep := parseStep_bend_else_eq st w a o 0 bi rest hw hop hp h1
                  (by omega) (getElem?_lt h2)
                have hred : parseAux (Token.Word w :: ts) st =
                    parseAux ts ⟨((st.res.set bi (Op.BElse o st.idx)).set o
                      (Op.BStart bi st.idx)) ++ [Op.BEnd bi], st.idx + 1, rest⟩ := by
                  simp [parseAux, hstep]
                have hu : underflowB (bi :: rest).length (Token.Word w :: ts) =
                    underflowB ((bi :: rest).length - 1) ts := by
                  simp [underflowB, hw, hop]
                rw [hred, hbw, hu]
                have := ih _ (parseStep_inv st _ _ hinv hstep)
                simpa using this
    · have hred : parseAux (Token.Number n :: ts) st =
          parseAux ts ⟨st.res ++ [Op.Push n], st.idx + 1, st.pending⟩ := by
        simp [parseAux, parseStep_number_eq]
      have h2 : hasBadWordB (Token.Number n :: ts) = hasBadWordB ts := rfl
      have h3 : underflowB st.pending.length (Token.Number n :: ts) =
          underflowB st.pending.length ts := rfl
      rw [hred, h2, h3]
      exact ih _ (parseStep_inv st _ _ hinv (parseStep_number_eq st n))

/-- C6 (amended): `parse` fails exactly when the token sequence contains a
NON-EMPTY word that is not a recognized operator lexeme, or a block
terminator or else token is met while the pending-block depth is zero,
scanning left to right before any such failure; for all other token
sequences `parse` succeeds.  The original claim is false for the empty word
token, which is not a recognized lexeme yet is silently skipped. -/
theorem claim_C6 :
    ∀ ts : List Token,
      (∃ e, parse ts = Except.error e) ↔
        (hasBadWordB ts = true ∨ underflowB 0 ts = true) := by
  intro ts
  have h := parseAux_fail_iff ts ⟨[], 0, []⟩ parseInv_init
  constructor
  · rintro ⟨e, he⟩
    apply h.mp
    cases haux : parseAux ts ⟨[], 0, []⟩ with
    | error er => exact ⟨er, rfl⟩
    | ok st' => simp [parse, haux] at he
  · intro hr
    obtain ⟨e, he⟩ := h.mpr hr
    exact ⟨e, by simp [parse, he]⟩

/-- C6 counterexample: the singleton sequence holding the empty word token
contains a word that is not a recognized operator lexeme, yet `parse`
succeeds (the empty word is skipped), contradicting the original claim. -/
theorem claim_C6_counterexample :
    parse [Token.Word ""] = Except.ok [] ∧ lookupOp "" = none := by
  constructor
  · rfl
  · rfl

theorem claim_C6_witness :
    ∃ e, parse [Token.Word "\x7d"] = Except.error e :=
  (claim_C6 [Token.Word "\x7d"]).mpr (Or.inr (by decide))
